import Mathlib

/-!
Verification of `exhaustive.py`: a deterministic-replay exhaustive-search
engine.  A *flow* is a program that repeatedly calls `choose(domain)`;
the driver `Chooser.apply` re-runs the flow, each time replaying one
recorded choice path popped from a LIFO backlog, and collects completed
results.  On top of the driver sit a small relational algebra over
"assignments" (dicts) and a `Chart` aggregator.

The shallow embedding below mirrors the Python source:

* `Flow` is the choice tree of a flow body: each `choose` call site has a
  finite ordered domain and a continuation per value.
* `Chooser` holds `_chosen` (the recorded path), the iterator remainder
  (`_choosit`) and the shared backlog (`_stack`; `none` models the
  `stack = None` single-choice mode of the default constructor).
* `Chooser.choose` is the choice primitive (`exhaustive.py` lines 25-48):
  single-choice mode returns `choices[0]`; replay returns the next recorded
  value (or the `ChooserException`, here `nondet`, if it is not in the
  domain); an exhausted iterator extends the backlog with one extended
  path per domain value and raises `_ChooserEscape` (here `escape`).
* `runWith` is one invocation of the flow body with a given chooser.
* `applyLoopW` is the fuelled `Chooser.apply` loop (lines 51-81):
  pop the last backlog entry, re-run the flow, collect non-`None` results,
  swallow escapes, propagate `ChooserException`.  `none` means the fuel ran
  out with the loop still running.  `applyTraceW` is the same loop
  instrumented to record every completed replay `(path, result)`.
* `applyLoopA` is the same loop over an abstract replay function; it is
  used to reason about flows whose choice tree is infinite, which the
  well-founded inductive `Flow` cannot represent.
-/

namespace Exhaustive

/-- Choice tree of a flow body: `ret` is a plain return (`none` models
Python `None`), `choose dom k` a `chooser.choose(dom)` call site with
continuation `k`. -/
inductive Flow (V β : Type) where
  | ret : Option β → Flow V β
  | choose : List V → (V → Flow V β) → Flow V β

/-- State of a `Chooser` object: the recorded path `_chosen`, the not yet
consumed part of `iter(chosen)`, and the backlog `_stack` (`none` models
`stack = None`, i.e. `_single_choice = True`). -/
structure Chooser (V : Type) where
  chosen : List V
  choosit : List V
  stack : Option (List (List V))

/-- Outcome of one `Chooser.choose(choices)` call: a returned value with
the updated chooser state, the `_ChooserEscape` unwind carrying the
extended backlog, the `ChooserException` (`nondet`), or the `IndexError`
of `choices[0]` on an empty list. -/
inductive ChooseOut (V : Type) where
  | value : V → Chooser V → ChooseOut V
  | escape : List (List V) → ChooseOut V
  | nondet : ChooseOut V
  | idxErr : ChooseOut V

/-- `Chooser.choose`, translated from `exhaustive.py` lines 25-48. -/
def Chooser.choose {V : Type} [DecidableEq V] (c : Chooser V) (choices : List V) : ChooseOut V :=
  match c.stack with
  | none =>
    match choices with
    | [] => .idxErr
    | v :: _ => .value v c
  | some st =>
    match c.choosit with
    | v :: rest => if v ∈ choices then .value v { c with choosit := rest } else .nondet
    | [] => .escape (st ++ choices.map (fun ch => c.chosen ++ [ch]))

/-- Outcome of one replay of the flow body: normal return (possibly
`None`), the `_ChooserEscape` unwind carrying the extended backlog,
`ChooserException`, or `IndexError`. -/
inductive RunOut (V β : Type) where
  | ok : Option β → RunOut V β
  | escape : List (List V) → RunOut V β
  | nondet : RunOut V β
  | idxErr : RunOut V β

/-- One invocation `f(chooser = c)` of the flow body: each `choose` call
site consults the chooser; escapes and exceptions abort the replay. -/
def runWith {V β : Type} [DecidableEq V] : Flow V β → Chooser V → RunOut V β
  | .ret b, _ => .ok b
  | .choose dom k, c =>
    match c.choose dom with
    | .value v c2 => runWith (k v) c2
    | .escape st => .escape st
    | .nondet => .nondet
    | .idxErr => .idxErr

/-- Terminal state of the `Chooser.apply` loop: the collected results
list, or an uncaught exception (`ChooserException` / `IndexError`)
propagating out of `apply` with no partial results. -/
inductive ApplyOut (γ : Type) where
  | results : List γ → ApplyOut γ
  | nondetErr : ApplyOut γ
  | idxError : ApplyOut γ

/-- Fuelled `Chooser.apply` loop (`exhaustive.py` lines 51-81):
`stack` starts as `[[]]`; while it is non-empty, pop the most recently
pushed path (`list.pop()` pops the last element), replay the flow with a
fresh chooser bound to it and to the popped stack, append a non-`None`
result, silently drop escapes (the chooser already extended the stack).
`none` means the fuel was exhausted while the loop was still running. -/
def applyLoopW {V β : Type} [DecidableEq V] (fl : Flow V β) :
    Nat → List (List V) → List β → Option (ApplyOut β)
  | 0, stack, results =>
    match stack.getLast? with
    | none => some (.results results)
    | some _ => none
  | fuel + 1, stack, results =>
    match stack.getLast? with
    | none => some (.results results)
    | some chosen =>
      match runWith fl { chosen := chosen, choosit := chosen, stack := some stack.dropLast } with
      | .ok none => applyLoopW fl fuel stack.dropLast results
      | .ok (some b) => applyLoopW fl fuel stack.dropLast (results ++ [b])
      | .escape st2 => applyLoopW fl fuel st2 results
      | .nondet => some .nondetErr
      | .idxErr => some .idxError

/-- The `Chooser.apply` loop instrumented to record, for every replay that
completes normally, the pair (replayed path, returned value).  The result
collection of `applyLoopW` is recovered by dropping the paths and the
`None` results. -/
def applyTraceW {V β : Type} [DecidableEq V] (fl : Flow V β) :
    Nat → List (List V) → List (List V × Option β) → Option (ApplyOut (List V × Option β))
  | 0, stack, tr =>
    match stack.getLast? with
    | none => some (.results tr)
    | some _ => none
  | fuel + 1, stack, tr =>
    match stack.getLast? with
    | none => some (.results tr)
    | some chosen =>
      match runWith fl { chosen := chosen, choosit := chosen, stack := some stack.dropLast } with
      | .ok b => applyTraceW fl fuel stack.dropLast (tr ++ [(chosen, b)])
      | .escape st2 => applyTraceW fl fuel st2 tr
      | .nondet => some .nondetErr
      | .idxErr => some .idxError

/-- The `Chooser.apply` loop over an abstract replay function `F`:
`F p` is the outcome of replaying the flow against recorded path `p`,
an escape carrying only the newly pushed paths.  Unlike the inductive
`Flow`, an abstract `F` can describe an infinite choice tree. -/
def applyLoopA {V β : Type} (F : List V → RunOut V β) :
    Nat → List (List V) → List β → Option (ApplyOut β)
  | 0, stack, results =>
    match stack.getLast? with
    | none => some (.results results)
    | some _ => none
  | fuel + 1, stack, results =>
    match stack.getLast? with
    | none => some (.results results)
    | some chosen =>
      match F chosen with
      | .ok none => applyLoopA F fuel stack.dropLast results
      | .ok (some b) => applyLoopA F fuel stack.dropLast (results ++ [b])
      | .escape ps => applyLoopA F fuel (stack.dropLast ++ ps) results
      | .nondet => some .nondetErr
      | .idxErr => some .idxError

/-- Nodes of the choice tree of an abstract replay function, i.e. the
paths the driver can ever pop, starting from the initial empty path. -/
inductive ReachF {V β : Type} (F : List V → RunOut V β) : List V → List V → Prop where
  | refl (p : List V) : ReachF F p p
  | step {p q r : List V} {ps : List (List V)} :
      ReachF F p q → F q = .escape ps → r ∈ ps → ReachF F p r

/-- Replay a recorded path against a choice tree, following one
continuation per recorded value.  `some fl2` means the whole path is
consumed, each value lying in the domain offered at its call site, and
the replay stands at subtree `fl2`. -/
def descend {V β : Type} [DecidableEq V] : Flow V β → List V → Option (Flow V β)
  | fl, [] => some fl
  | .ret _, _ :: _ => none
  | .choose dom k, c :: rest => if c ∈ dom then descend (k c) rest else none

/-- All terminating paths of a choice tree, paired with their return
values, in the order the driver visits them: depth-first, the last
domain element of every `choose` site first. -/
def tpaths {V β : Type} : Flow V β → List (List V × Option β)
  | .ret b => [([], b)]
  | .choose dom k => dom.reverse.flatMap (fun v => (tpaths (k v)).map (fun q => (v :: q.1, q.2)))

/-- The value `Chooser.apply` returns: visit all terminating paths in
driver order and drop the `None` results (a total function; the fuelled
loop `applyLoopW` reaches exactly this value, see the claim theorems). -/
def applyF {V β : Type} (fl : Flow V β) : List β :=
  (tpaths fl).filterMap Prod.snd

/-- The path a single-choice chooser follows: the first candidate of
every domain. -/
def firstPath {V β : Type} : Flow V β → List V
  | .ret _ => []
  | .choose [] _ => []
  | .choose (v :: _) k => v :: firstPath (k v)

/-- Every domain in the tree is non-empty. -/
def NeDoms {V β : Type} : Flow V β → Prop
  | .ret _ => True
  | .choose dom k => dom ≠ [] ∧ ∀ v ∈ dom, NeDoms (k v)

/-! ### The relational algebra over assignments

A Python assignment is a dict from variable names to values; Python
dicts preserve insertion order and updating an existing key keeps its
position.  An assignment is modelled as a `List (String × α)` with the
corresponding lookup/set operations. -/

/-- An assignment: an insertion-ordered dict from names to values. -/
abbrev Assign (α : Type) := List (String × α)

/-- Dict lookup (`d[k]` / `d.get(k)`). -/
def dictGet {α : Type} : Assign α → String → Option α
  | [], _ => none
  | kv :: rest, k => if kv.1 = k then some kv.2 else dictGet rest k

/-- Dict membership (`k in d`). -/
def dictHasKey {α : Type} (d : Assign α) (k : String) : Bool :=
  d.any (fun kv => kv.1 = k)

/-- Dict store (`d[k] = v`): replace in place if the key exists
(keeping its position, as Python dicts do), else append. -/
def dictSet {α : Type} (d : Assign α) (k : String) (v : α) : Assign α :=
  if dictHasKey d k then d.map (fun kv => if kv.1 = k then (k, v) else kv)
  else d ++ [(k, v)]

/-- Python `a.copy()` followed by `.update(b)`: store every entry of `b`,
in order, into a copy of `a`. -/
def dictUpdate {α : Type} (a b : Assign α) : Assign α :=
  b.foldl (fun c kv => dictSet c kv.1 kv.2) a

namespace Assignments

/-- `Assignments.combine` (`exhaustive.py` lines 217-233): for each
assignment of `self`, for each assignment of `other`, append the updated
copy. -/
def combine {α : Type} (A B : List (Assign α)) : List (Assign α) :=
  A.foldl (fun acc a => B.foldl (fun acc2 b => acc2 ++ [dictUpdate a b]) acc) []

/-- The body of the `for name, value in constraining_assignments.items()`
loop of `Assignments._fix`: an assignment survives iff no constraint item
has its key present with a different value. -/
def fixKeep {α : Type} [DecidableEq α] (C : Assign α) (r : Assign α) : Bool :=
  C.all (fun kv =>
    match dictGet r kv.1 with
    | none => true
    | some w => decide (w = kv.2))

/-- `Assignments.fix` / `Assignments._fix` (`exhaustive.py` lines 247-248
and 268-278): keep, in order, the assignments not cancelled by any
constraint. -/
def fix {α : Type} [DecidableEq α] (A : List (Assign α)) (C : Assign α) : List (Assign α) :=
  A.filter (fixKeep C)

/-- `Assignments.filter` (`exhaustive.py` lines 250-257): `fix`, then keep
only assignments whose key set contains every constraint key. -/
def filter {α : Type} [DecidableEq α] (A : List (Assign α)) (C : Assign α) : List (Assign α) :=
  (fix A C).filter (fun r => C.all (fun kv => dictHasKey r kv.1))

/-- `Assignments.fetch` (`exhaustive.py` line 259-260). -/
def fetch {α : Type} (A : List (Assign α)) (k : String) : List α :=
  A.filterMap (fun r => dictGet r k)

end Assignments

/-! ### The Chart aggregator -/

/-- Shape of a value returned by a flow method, as discriminated by
`Chart._collect`: a list, a dict, or anything else (an opaque scalar). -/
inductive PyObj (α : Type) where
  | plist : List (PyObj α) → PyObj α
  | pdict : List (String × α) → PyObj α
  | pscalar : α → PyObj α

/-- The body of the `for result in results` loop of `Chart._collect`
(`exhaustive.py` lines 105-120): lists are flattened element-wise, dicts
lose their `"chooser"`/`"self"` entries and are appended when non-empty,
anything else is appended as-is. -/
def collectOne {α : Type} (acc : List (PyObj α)) (r : PyObj α) : List (PyObj α) :=
  match r with
  | .plist xs => acc ++ xs
  | .pdict d =>
    let d2 := (d.filter (fun kv => !decide (kv.1 = "chooser"))).filter
        (fun kv => !decide (kv.1 = "self"))
    if d2.isEmpty then acc else acc ++ [.pdict d2]
  | .pscalar x => acc ++ [.pscalar x]

/-- `Chart._collect` over one result list. -/
def chartCollect {α : Type} (acc : List (PyObj α)) (results : List (PyObj α)) : List (PyObj α) :=
  results.foldl collectOne acc

/-- Kernel-reducible strict ordering on character lists (the ordering
`dir()` sorts attribute names by). -/
def charListLt : List Char → List Char → Bool
  | [], [] => false
  | [], _ :: _ => true
  | _ :: _, [] => false
  | c :: cs, d :: ds => if c < d then true else if d < c then false else charListLt cs ds

/-- Name ordering used by `dir()`. -/
def nameLt (a b : String) : Bool := charListLt a.data b.data

/-- Insert an entry into a name-sorted list of entries. -/
def insertByName {τ : Type} (x : String × τ) : List (String × τ) → List (String × τ)
  | [] => [x]
  | y :: ys => if nameLt x.1 y.1 then x :: y :: ys else y :: insertByName x ys

/-- Sort entries by name: the order in which `for name in dir(self)`
enumerates the flow-marked methods. -/
def sortByName {τ : Type} (l : List (String × τ)) : List (String × τ) :=
  l.foldr insertByName []

/-- `Chart.create` (`exhaustive.py` lines 93-103): a chart is its list of
flow-decorated methods (with their names, in declaration order);
`create` iterates them in `dir(self)` order, i.e. sorted by name, and
collects each method's `Chooser.apply` results. -/
def chartCreate {V α : Type} (flows : List (String × Flow V (PyObj α))) : List (PyObj α) :=
  (sortByName flows).foldl (fun acc nf => chartCollect acc (applyF nf.2)) []

/-- Modelled from the spec: the claim's reading of `Chart.create`, which
concatenates the collected results in registration (declaration) order
instead of `dir()` order. -/
def chartCreateRegOrder {V α : Type} (flows : List (String × Flow V (PyObj α))) : List (PyObj α) :=
  flows.foldl (fun acc nf => chartCollect acc (applyF nf.2)) []

/-! ### Concrete flows used in the claim instances -/

/-- The flow `x = choose([0,1]); y = choose([0,1]); return (x, y)`. -/
def flow2 : Flow Nat (Nat × Nat) :=
  .choose [0, 1] (fun x => .choose [0, 1] (fun y => .ret (some (x, y))))

/-- A flow returning the empty list on one path, `None` on another and a
non-empty list on the third. -/
def flowFalsy : Flow Nat (List Nat) :=
  .choose [0, 1, 2] (fun x =>
    .ret (if x = 0 then some [] else if x = 1 then none else some [x]))

/-- A flow returning `0` on one path and `None` on the other. -/
def flowZero : Flow Nat Nat :=
  .choose [0, 1] (fun x => .ret (if x = 0 then some 0 else none))

/-- A one-site flow with domain `[0, 1]`. -/
def flowPair : Flow Nat Nat := .choose [0, 1] (fun x => .ret (some x))

/-- An abstract replay function whose choice tree is the infinite unary
tree: every replay forks again, pushing one longer path. -/
def unboundedF : List Nat → RunOut Nat Nat :=
  fun p => .escape [p ++ [0]]

/-- A flow method returning the scalar `1`. -/
def flowScalarOne : Flow Nat (PyObj Nat) := .ret (some (.pscalar 1))

/-- A flow method returning the scalar `2`. -/
def flowScalarTwo : Flow Nat (PyObj Nat) := .ret (some (.pscalar 2))

/-- A chart whose flow methods are declared in non-alphabetical order:
`zflow` first, `aflow` second. -/
def chartZA : List (String × Flow Nat (PyObj Nat)) :=
  [("zflow", flowScalarOne), ("aflow", flowScalarTwo)]

/-! ### Replay lemmas -/

theorem descend_nil {V β : Type} [DecidableEq V] (fl : Flow V β) : descend fl [] = some fl := by
  cases fl <;> rfl

theorem descend_append {V β : Type} [DecidableEq V] (p q : List V) :
    ∀ fl : Flow V β, descend fl (p ++ q) = (descend fl p).bind (fun fl2 => descend fl2 q) := by
  induction p with
  | nil => intro fl; simp [descend]
  | cons c p ih =>
    intro fl
    cases fl with
    | ret b => simp [descend]
    | choose dom k =>
      by_cases hc : c ∈ dom
      · simp [descend, hc, ih]
      · simp [descend, hc]

theorem descend_child {V β : Type} [DecidableEq V] {fl : Flow V β} {p dom : List V}
    {k : V → Flow V β} (h : descend fl p = some (.choose dom k)) {v : V} (hv : v ∈ dom) :
    descend fl (p ++ [v]) = some (k v) := by
  rw [descend_append p [v] fl, h]
  simp [descend, hv]

theorem runWith_descend {V β : Type} [DecidableEq V] {fl fl2 : Flow V β} {p : List V}
    (h : descend fl p = some fl2) :
    ∀ (ch q : List V) (st : List (List V)),
      runWith fl ⟨ch, p ++ q, some st⟩ = runWith fl2 ⟨ch, q, some st⟩ := by
  induction p generalizing fl with
  | nil =>
    simp only [descend, Option.some.injEq] at h
    subst h
    intro ch q st
    rfl
  | cons c p ih =>
    cases fl with
    | ret b => simp [descend] at h
    | choose dom k =>
      intro ch q st
      by_cases hc : c ∈ dom
      · rw [descend, if_pos hc] at h
        simpa [runWith, Chooser.choose, hc] using ih h ch q st
      · rw [descend, if_neg hc] at h
        cases h

theorem runWith_descend_ret {V β : Type} [DecidableEq V] {fl : Flow V β} {p : List V}
    {b : Option β} (h : descend fl p = some (.ret b)) (st : List (List V)) :
    runWith fl ⟨p, p, some st⟩ = .ok b := by
  have h2 := runWith_descend h p [] st
  simpa [runWith] using h2

theorem runWith_descend_choose {V β : Type} [DecidableEq V] {fl : Flow V β} {p dom : List V}
    {k : V → Flow V β} (h : descend fl p = some (.choose dom k)) (st : List (List V)) :
    runWith fl ⟨p, p, some st⟩ = .escape (st ++ dom.map (fun v => p ++ [v])) := by
  have h2 := runWith_descend h p [] st
  simpa [runWith, Chooser.choose] using h2

/-! ### The master lemma: the driver performs a depth-first traversal -/

theorem applyTrace_master {V β : Type} [DecidableEq V] (fl0 : Flow V β) :
    ∀ (fl2 : Flow V β) (p : List V), descend fl0 p = some fl2 →
    ∀ (stack : List (List V)) (tr : List (List V × Option β)),
    ∃ n, ∀ m, applyTraceW fl0 (m + n) (stack ++ [p]) tr
        = applyTraceW fl0 m stack (tr ++ (tpaths fl2).map (fun q => (p ++ q.1, q.2))) := by
  intro fl2
  induction fl2 with
  | ret b =>
    intro p h stack tr
    refine ⟨1, fun m => ?_⟩
    simp only [applyTraceW, List.getLast?_concat, List.dropLast_concat]
    rw [runWith_descend_ret h]
    simp [tpaths]
  | choose dom k ih =>
    intro p h stack tr
    have inner : ∀ ds : List V, (∀ v ∈ ds, v ∈ dom) →
        ∀ (stack2 : List (List V)) (tr2 : List (List V × Option β)), ∃ n, ∀ m,
        applyTraceW fl0 (m + n) (stack2 ++ ds.map (fun v => p ++ [v])) tr2
          = applyTraceW fl0 m stack2
              (tr2 ++ ds.reverse.flatMap (fun v =>
                 (tpaths (k v)).map (fun q => ((p ++ [v]) ++ q.1, q.2)))) := by
      intro ds
      induction ds using List.reverseRecOn with
      | nil => exact fun _ stack2 tr2 => ⟨0, fun m => by simp⟩
      | append_singleton ds v ihds =>
        intro hsub stack2 tr2
        have hv : v ∈ dom := hsub v (by simp)
        obtain ⟨n1, h1⟩ := ih v (p ++ [v]) (descend_child h hv)
            (stack2 ++ ds.map (fun w => p ++ [w])) tr2
        obtain ⟨n2, h2⟩ := ihds (fun w hw => hsub w (by simp [hw]))
            stack2 (tr2 ++ (tpaths (k v)).map (fun q => ((p ++ [v]) ++ q.1, q.2)))
        refine ⟨n2 + n1, fun m => ?_⟩
        have e1 : stack2 ++ (ds ++ [v]).map (fun w => p ++ [w])
            = (stack2 ++ ds.map (fun w => p ++ [w])) ++ [p ++ [v]] := by simp
        rw [e1, show m + (n2 + n1) = (m + n2) + n1 by omega, h1 (m + n2), h2 m]
        simp [List.flatMap_append, List.append_assoc]
    obtain ⟨n0, h0⟩ := inner dom (fun v hv => hv) stack tr
    refine ⟨n0 + 1, fun m => ?_⟩
    rw [show m + (n0 + 1) = (m + n0) + 1 by omega]
    simp only [applyTraceW, List.getLast?_concat, List.dropLast_concat]
    rw [runWith_descend_choose h]
    show applyTraceW fl0 (m + n0) (stack ++ dom.map (fun v => p ++ [v])) tr = _
    rw [h0 m]
    congr 1
    congr 1
    simp only [tpaths, List.map_flatMap]
    refine congrArg (List.flatMap dom.reverse) ?_
    funext a
    simp [Function.comp, List.append_assoc]

/-- Restriction of an instrumented loop outcome to the plain result list
of `Chooser.apply`: forget the paths and drop the `None` results. -/
def extractRes {V β : Type} : ApplyOut (List V × Option β) → ApplyOut β
  | .results t => .results (t.filterMap Prod.snd)
  | .nondetErr => .nondetErr
  | .idxError => .idxError

theorem applyLoopW_eq_trace {V β : Type} [DecidableEq V] (fl : Flow V β) :
    ∀ (fuel : Nat) (stack : List (List V)) (tr : List (List V × Option β)),
    applyLoopW fl fuel stack (tr.filterMap Prod.snd)
      = (applyTraceW fl fuel stack tr).map extractRes := by
  intro fuel
  induction fuel with
  | zero =>
    intro stack tr
    cases hs : stack.getLast? <;> simp [applyLoopW, applyTraceW, hs, extractRes]
  | succ fuel ih =>
    intro stack tr
    cases hs : stack.getLast? with
    | none => simp [applyLoopW, applyTraceW, hs, extractRes]
    | some chosen =>
      simp only [applyLoopW, applyTraceW, hs]
      cases hr : runWith fl ⟨chosen, chosen, some stack.dropLast⟩ with
      | ok b =>
        cases b with
        | none =>
          have h2 := ih stack.dropLast (tr ++ [(chosen, none)])
          simpa [List.filterMap_append] using h2
        | some v =>
          have h2 := ih stack.dropLast (tr ++ [(chosen, some v)])
          simpa [List.filterMap_append] using h2
      | escape st2 => exact ih st2 tr
      | nondet => simp [extractRes]
      | idxErr => simp [extractRes]

/-- The fuelled `Chooser.apply` loop terminates on every inductive flow
tree (every such tree is finite), visiting exactly the terminating paths
of the tree in order and collecting exactly the non-`None` results. -/
theorem apply_run {V β : Type} [DecidableEq V] (fl : Flow V β) :
    ∃ n, applyTraceW fl n [[]] [] = some (.results (tpaths fl))
      ∧ applyLoopW fl n [[]] [] = some (.results (applyF fl)) := by
  obtain ⟨n, hn⟩ := applyTrace_master fl fl [] (descend_nil fl) [] []
  have h0 := hn 0
  have htr : applyTraceW fl n [[]] [] = some (.results (tpaths fl)) := by
    simpa [applyTraceW] using h0
  refine ⟨n, htr, ?_⟩
  have h2 := applyLoopW_eq_trace fl n [[]] []
  simp only [List.filterMap_nil] at h2
  rw [h2, htr]
  rfl

/-! ### Non-termination on infinite choice trees -/

theorem reach_split {V β : Type} {F : List V → RunOut V β} {p q : List V}
    (h : ReachF F p q) :
    q = p ∨ ∃ ps, F p = .escape ps ∧ ∃ r ∈ ps, ReachF F r q := by
  induction h with
  | refl => left; rfl
  | step h1 h2 h3 ih =>
    rcases ih with rfl | ⟨ps, hps, r0, hr0, hreach⟩
    · right
      exact ⟨_, h2, _, h3, .refl _⟩
    · right
      exact ⟨ps, hps, r0, hr0, .step hreach h2 h3⟩

theorem applyLoopA_finite {V β : Type} (F : List V → RunOut V β)
    (hF : ∀ p, F p ≠ .nondet ∧ F p ≠ .idxErr) :
    ∀ (fuel : Nat) (stack : List (List V)) (results : List β) (r : ApplyOut β),
      applyLoopA F fuel stack results = some r →
      ∀ p ∈ stack, {q | ReachF F p q}.Finite := by
  intro fuel
  induction fuel with
  | zero =>
    intro stack results r h p hp
    rcases List.eq_nil_or_concat stack with rfl | ⟨s, p0, rfl⟩
    · simp at hp
    · rw [List.concat_eq_append] at h
      simp [applyLoopA, List.getLast?_concat] at h
  | succ fuel ih =>
    intro stack results r h p hp
    rcases List.eq_nil_or_concat stack with rfl | ⟨s, p0, rfl⟩
    · simp at hp
    · rw [List.concat_eq_append] at h hp
      simp only [applyLoopA, List.getLast?_concat, List.dropLast_concat] at h
      have hmem : p ∈ s ∨ p = p0 := by
        rcases List.mem_append.1 hp with h1 | h1
        · exact Or.inl h1
        · simp at h1
          exact Or.inr h1
      cases hFp : F p0 with
      | ok b =>
        rw [hFp] at h
        have hrec : ∀ q ∈ s, {x | ReachF F q x}.Finite := by
          cases b with
          | none => exact ih s results r h
          | some v => exact ih s (results ++ [v]) r h
        rcases hmem with h1 | rfl
        · exact hrec p h1
        · refine (Set.finite_singleton p).subset ?_
          intro q hq
          rcases reach_split hq with rfl | ⟨ps, hps, _⟩
          · exact Set.mem_singleton q
          · rw [hFp] at hps
            cases hps
      | escape ps =>
        rw [hFp] at h
        have hrec := ih (s ++ ps) results r h
        rcases hmem with h1 | rfl
        · exact hrec p (List.mem_append_left _ h1)
        · have hsub : {q | ReachF F p q} ⊆
              {p} ∪ ⋃ r2 ∈ {x | x ∈ ps}, {q | ReachF F r2 q} := by
            intro q hq
            rcases reach_split hq with rfl | ⟨ps2, hps2, r2, hr2, hre⟩
            · exact Or.inl rfl
            · rw [hFp] at hps2
              injection hps2 with he
              subst he
              exact Or.inr (Set.mem_biUnion hr2 hre)
          refine Set.Finite.subset (Set.Finite.union (Set.finite_singleton p) ?_) hsub
          exact Set.Finite.biUnion (List.finite_toSet ps)
            (fun r2 hr2 => hrec r2 (List.mem_append_right _ hr2))
      | nondet => exact absurd hFp (hF p0).1
      | idxErr => exact absurd hFp (hF p0).2

theorem applyLoopA_unbounded {V β : Type} (F : List V → RunOut V β)
    (hF : ∀ p, F p ≠ .nondet ∧ F p ≠ .idxErr)
    (hinf : ¬ {q | ReachF F [] q}.Finite) :
    ∀ n, applyLoopA F n [[]] [] = none := by
  intro n
  cases h : applyLoopA F n [[]] [] with
  | none => rfl
  | some r =>
    exact absurd (applyLoopA_finite F hF n [[]] [] r h [] (by simp)) hinf

theorem unboundedF_no_abort : ∀ p, unboundedF p ≠ .nondet ∧ unboundedF p ≠ .idxErr := by
  intro p
  constructor <;> simp [unboundedF]

theorem unboundedF_infinite : ¬ {q | ReachF unboundedF [] q}.Finite := by
  have hmem : ∀ nn : Nat, List.replicate nn (0 : Nat) ∈ {q | ReachF unboundedF [] q} := by
    intro nn
    induction nn with
    | zero => exact .refl []
    | succ nn ih =>
      have hstep : ReachF unboundedF [] (List.replicate nn (0 : Nat) ++ [0]) :=
        .step ih rfl (by simp)
      simpa [List.replicate_succ'] using hstep
  have hinj : Function.Injective (fun nn : Nat => List.replicate nn (0 : Nat)) := by
    intro a b hab
    simpa using congrArg List.length hab
  exact Set.infinite_of_injective_forall_mem hinj hmem

/-! ### Dict lemmas -/

theorem dictHasKey_iff {α : Type} {d : Assign α} {k : String} :
    dictHasKey d k = true ↔ k ∈ d.map Prod.fst := by
  rw [dictHasKey, List.any_eq_true]
  constructor
  · rintro ⟨kv, hkv, hdec⟩
    rw [decide_eq_true_iff] at hdec
    exact List.mem_map.2 ⟨kv, hkv, hdec⟩
  · intro hm
    rcases List.mem_map.1 hm with ⟨kv, hkv, he⟩
    exact ⟨kv, hkv, by simp [he]⟩

theorem dictHasKey_cons_false {α : Type} {kv : String × α} {rest : Assign α} {k : String}
    (h : dictHasKey (kv :: rest) k = false) :
    ¬ kv.1 = k ∧ dictHasKey rest k = false := by
  rw [dictHasKey, List.any_cons, Bool.or_eq_false_iff, decide_eq_false_iff_not] at h
  exact ⟨h.1, h.2⟩

theorem dictGet_eq_none {α : Type} {d : Assign α} {k : String}
    (h : dictHasKey d k = false) : dictGet d k = none := by
  induction d with
  | nil => rfl
  | cons kv rest ih =>
    obtain ⟨h1, h2⟩ := dictHasKey_cons_false h
    rw [dictGet, if_neg h1]
    exact ih h2

theorem dictGet_mapSet {α : Type} (k : String) (v : α) (s : String) :
    ∀ d : Assign α,
      dictGet (d.map (fun kv => if kv.1 = k then (k, v) else kv)) s
        = if s = k then (if dictHasKey d k then some v else none) else dictGet d s := by
  intro d
  induction d with
  | nil => simp [dictGet, dictHasKey]
  | cons kv rest ih =>
    rw [List.map_cons]
    by_cases h1 : kv.1 = k
    · rw [if_pos h1]
      by_cases h2 : s = k
      · subst h2
        rw [dictGet, if_pos rfl, if_pos rfl, dictHasKey, List.any_cons]
        simp [h1]
      · have hks : ¬ k = s := fun hh => h2 hh.symm
        have hkvs : ¬ kv.1 = s := by rw [h1]; exact hks
        rw [dictGet, if_neg hks, ih, if_neg h2, if_neg h2, dictGet, if_neg hkvs]
    · rw [if_neg h1]
      by_cases h2 : s = k
      · subst h2
        have hkvs : ¬ kv.1 = s := h1
        rw [dictGet, if_neg hkvs, ih, if_pos rfl, if_pos rfl]
        rw [show dictHasKey (kv :: rest) s = dictHasKey rest s from by
          rw [dictHasKey, List.any_cons, dictHasKey]
          simp [hkvs]]
      · rw [dictGet, dictGet, ih, if_neg h2, if_neg h2]

theorem dictGet_push {α : Type} (k : String) (v : α) (s : String) :
    ∀ d : Assign α, dictHasKey d k = false →
      dictGet (d ++ [(k, v)]) s = if s = k then some v else dictGet d s := by
  intro d
  induction d with
  | nil =>
    intro _
    have hh : dictGet ([] ++ [(k, v)]) s = if k = s then some v else none := by
      simp [dictGet]
    rw [hh]
    by_cases h2 : s = k
    · subst h2
      simp
    · have hks : ¬ k = s := fun he => h2 he.symm
      rw [if_neg hks, if_neg h2]
      rfl
  | cons kv rest ih =>
    intro h
    obtain ⟨h1, h2⟩ := dictHasKey_cons_false h
    rw [List.cons_append, dictGet]
    by_cases h3 : kv.1 = s
    · have hsk : ¬ s = k := fun hh => h1 (hh ▸ h3)
      rw [if_pos h3, if_neg hsk, dictGet, if_pos h3]
    · rw [if_neg h3, ih h2]
      by_cases h4 : s = k
      · rw [if_pos h4, if_pos h4]
      · rw [if_neg h4, if_neg h4, dictGet, if_neg h3]

theorem dictGet_dictSet {α : Type} (d : Assign α) (k s : String) (v : α) :
    dictGet (dictSet d k v) s = if s = k then some v else dictGet d s := by
  by_cases hk : dictHasKey d k = true
  · rw [dictSet, if_pos hk, dictGet_mapSet k v s d]
    simp [hk]
  · rw [Bool.not_eq_true] at hk
    rw [dictSet, if_neg (by simp [hk]), dictGet_push k v s d hk]

theorem dictGet_dictUpdate {α : Type} (k : String) :
    ∀ b a : Assign α, (b.map Prod.fst).Nodup →
      dictGet (dictUpdate a b) k
        = match dictGet b k with
          | some v => some v
          | none => dictGet a k := by
  intro b
  induction b with
  | nil =>
    intro a _
    rw [show dictUpdate a [] = a from rfl]
    rfl
  | cons kv rest ih =>
    intro a hnd
    rw [List.map_cons, List.nodup_cons] at hnd
    rw [show dictUpdate a (kv :: rest) = dictUpdate (dictSet a kv.1 kv.2) rest from rfl]
    rw [ih _ hnd.2]
    by_cases hk : k = kv.1
    · have hrest : dictGet rest k = none := by
        apply dictGet_eq_none
        rw [Bool.eq_false_iff]
        intro hc
        exact hnd.1 (by rw [← hk]; exact dictHasKey_iff.1 hc)
      rw [hrest, dictGet_dictSet a kv.1 k kv.2, if_pos hk, dictGet, if_pos hk.symm]
    · have hkv : ¬ kv.1 = k := fun hh => hk hh.symm
      rw [dictGet_dictSet a kv.1 k kv.2, if_neg hk, dictGet, if_neg hkv]

/-! ### Combine, fix and filter lemmas -/

theorem foldl_push_map {σ γ : Type} (g : σ → γ) (B : List σ) :
    ∀ acc : List γ, B.foldl (fun ac x => ac ++ [g x]) acc = acc ++ B.map g := by
  induction B with
  | nil => intro acc; simp
  | cons x xs ih => intro acc; simp [ih]

theorem combine_eq_flatMap {α : Type} (A B : List (Assign α)) :
    Assignments.combine A B = A.flatMap (fun a => B.map (fun b => dictUpdate a b)) := by
  rw [Assignments.combine]
  suffices h : ∀ acc, A.foldl (fun acc a => B.foldl (fun acc2 b => acc2 ++ [dictUpdate a b]) acc) acc
      = acc ++ A.flatMap (fun a => B.map (fun b => dictUpdate a b)) by
    simpa using h []
  induction A with
  | nil => intro acc; simp
  | cons a as ih =>
    intro acc
    simp only [List.foldl_cons, List.flatMap_cons]
    rw [foldl_push_map (fun b => dictUpdate a b) B acc, ih]
    simp [List.append_assoc]

theorem fixKeep_iff {α : Type} [DecidableEq α] (C r : Assign α) :
    Assignments.fixKeep C r = true
      ↔ ∀ kv ∈ C, ∀ w, dictGet r kv.1 = some w → w = kv.2 := by
  rw [Assignments.fixKeep, List.all_eq_true]
  refine forall₂_congr fun kv hkv => ?_
  cases hg : dictGet r kv.1 <;> simp [hg]

/-! ### Single-choice mode lemmas -/

theorem runWith_single {V β : Type} [DecidableEq V] (fl : Flow V β) :
    ∀ ch it : List V,
      runWith fl ⟨ch, it, none⟩ = runWith fl ⟨[], [], none⟩
      ∧ (∀ ps, runWith fl ⟨ch, it, none⟩ ≠ .escape ps)
      ∧ runWith fl ⟨ch, it, none⟩ ≠ .nondet := by
  induction fl with
  | ret b =>
    intro ch it
    refine ⟨rfl, fun ps => ?_, ?_⟩ <;> simp [runWith]
  | choose dom k ih =>
    intro ch it
    cases dom with
    | nil =>
      refine ⟨rfl, fun ps => ?_, ?_⟩ <;> simp [runWith, Chooser.choose]
    | cons v vs =>
      have e1 : runWith (.choose (v :: vs) k) ⟨ch, it, none⟩ = runWith (k v) ⟨ch, it, none⟩ := by
        simp [runWith, Chooser.choose]
      have e2 : runWith (.choose (v :: vs) k) ⟨[], [], none⟩ = runWith (k v) ⟨[], [], none⟩ := by
        simp [runWith, Chooser.choose]
      obtain ⟨ha, hb, hc⟩ := ih v ch it
      exact ⟨by rw [e1, e2, ha], fun ps => by rw [e1]; exact hb ps, by rw [e1]; exact hc⟩

theorem tpaths_ne_nil {V β : Type} (fl : Flow V β) (h : NeDoms fl) : tpaths fl ≠ [] := by
  induction fl with
  | ret b => simp [tpaths]
  | choose dom k ih =>
    rw [NeDoms] at h
    cases dom with
    | nil => exact absurd rfl h.1
    | cons v vs =>
      rw [tpaths]
      intro hcontra
      rw [List.flatMap_eq_nil_iff] at hcontra
      have h2 := hcontra v (by simp)
      rw [List.map_eq_nil_iff] at h2
      exact ih v (h.2 v (by simp)) h2

theorem getLast?_map {γ δ : Type} (f : γ → δ) (l : List γ) :
    (l.map f).getLast? = l.getLast?.map f := by
  rw [List.getLast?_eq_head?_reverse, List.getLast?_eq_head?_reverse,
    ← List.map_reverse, List.head?_map]

theorem single_run_is_last_path {V β : Type} [DecidableEq V] (fl : Flow V β) (h : NeDoms fl) :
    ∃ b, runWith fl ⟨[], [], none⟩ = .ok b
      ∧ (tpaths fl).getLast? = some (firstPath fl, b) := by
  induction fl with
  | ret b => exact ⟨b, rfl, rfl⟩
  | choose dom k ih =>
    rw [NeDoms] at h
    cases dom with
    | nil => exact absurd rfl h.1
    | cons v vs =>
      obtain ⟨b, hb1, hb2⟩ := ih v (h.2 v (by simp))
      refine ⟨b, ?_, ?_⟩
      · rw [show runWith (.choose (v :: vs) k) (⟨[], [], none⟩ : Chooser V)
            = runWith (k v) ⟨[], [], none⟩ from by simp [runWith, Chooser.choose]]
        exact hb1
      · rw [tpaths, show (v :: vs).reverse = vs.reverse ++ [v] from by simp,
          List.flatMap_append, List.getLast?_append]
        have e3 : ([v].flatMap fun w => (tpaths (k w)).map (fun q => (w :: q.1, q.2)))
            = (tpaths (k v)).map (fun q => (v :: q.1, q.2)) := by
          simp
        rw [e3, getLast?_map, hb2]
        rw [show firstPath (.choose (v :: vs) k) = v :: firstPath (k v) from rfl]
        rfl

/-! ### Name-sorting lemmas -/

theorem insertByName_front {τ : Type} (x : String × τ) (l : List (String × τ))
    (h : ∀ y ∈ l, nameLt x.1 y.1 = true) : insertByName x l = x :: l := by
  cases l with
  | nil => rfl
  | cons y ys => simp [insertByName, h y (by simp)]

theorem sortByName_sorted {τ : Type} :
    ∀ l : List (String × τ), l.Pairwise (fun a b => nameLt a.1 b.1 = true) →
      sortByName l = l := by
  intro l
  induction l with
  | nil => intro _; rfl
  | cons x xs ih =>
    intro h
    rw [List.pairwise_cons] at h
    rw [show sortByName (x :: xs) = insertByName x (sortByName xs) from rfl,
      ih h.2, insertByName_front x xs h.1]

/-! ### Claim theorems -/

/-- C1: for every entry function whose choice tree is finite (every tree of
the well-founded type `Flow` is finite), the driver terminates: some fuel
suffices, the instrumented loop replays exactly the terminating paths of
the tree — each exactly once, in order — and the collected output is those
paths' results with the `None`s dropped, so each completed path contributes
at most one output element.  For a replay function whose choice tree is
infinite (and which never raises), the loop never finishes: every fuel
runs out. -/
theorem c1_apply_visits_each_path_once_and_terminates_iff_finite {V β : Type} [DecidableEq V] :
    (∀ fl : Flow V β, ∃ n,
        applyTraceW fl n [[]] [] = some (.results (tpaths fl))
        ∧ applyLoopW fl n [[]] [] = some (.results ((tpaths fl).filterMap Prod.snd)))
    ∧ (∀ F : List V → RunOut V β,
        (∀ p, F p ≠ .nondet ∧ F p ≠ .idxErr) →
        ¬ {q | ReachF F [] q}.Finite →
        ∀ n, applyLoopA F n [[]] [] = none) := by
  constructor
  · intro fl
    obtain ⟨n, h1, h2⟩ := apply_run fl
    exact ⟨n, h1, h2⟩
  · intro F hF hinf
    exact applyLoopA_unbounded F hF hinf

theorem c1_witness :
    (∃ n, applyTraceW flow2 n [[]] [] = some (.results (tpaths flow2)))
    ∧ ∀ n, applyLoopA unboundedF n [[]] [] = none := by
  constructor
  · obtain ⟨n, h1, _⟩ :=
      (c1_apply_visits_each_path_once_and_terminates_iff_finite (V := Nat) (β := Nat × Nat)).1 flow2
    exact ⟨n, h1⟩
  · exact (c1_apply_visits_each_path_once_and_terminates_iff_finite (V := Nat) (β := Nat)).2
      unboundedF unboundedF_no_abort unboundedF_infinite

/-- C2: for the flow `x = choose([0,1]); y = choose([0,1])` the four
completed paths are replayed in the order (1,1), (1,0), (0,1), (0,0):
depth-first, each branch point visiting its alternatives in reverse
declared order. -/
theorem c2_visitation_order_reverse_depth_first :
    applyTraceW flow2 7 [[]] [] =
      some (.results [([1, 1], some (1, 1)), ([1, 0], some (1, 0)),
                      ([0, 1], some (0, 1)), ([0, 0], some (0, 0))]) := by
  rfl

/-- C3: when the recorded path `p` is exhausted at a `choose(dom)` call
site, the replay pushes onto the backlog, in domain order, one extended
path `p ++ [v]` per `v ∈ dom`, and unwinds with the escape signal — it
never returns a value on that branch — and the driver then continues the
loop on the extended backlog. -/
theorem c3_fork_pushes_extensions_then_unwinds {V β : Type} [DecidableEq V]
    (fl : Flow V β) (p dom : List V) (k : V → Flow V β)
    (h : descend fl p = some (.choose dom k)) :
    (∀ st, runWith fl ⟨p, p, some st⟩ = .escape (st ++ dom.map (fun v => p ++ [v])))
    ∧ ∀ (stack : List (List V)) (results : List β) (fuel : Nat),
        applyLoopW fl (fuel + 1) (stack ++ [p]) results
          = applyLoopW fl fuel (stack ++ dom.map (fun v => p ++ [v])) results := by
  refine ⟨fun st => runWith_descend_choose h st, fun stack results fuel => ?_⟩
  have h2 := runWith_descend_choose h stack
  simp only [applyLoopW, List.getLast?_concat, List.dropLast_concat, h2]

theorem c3_witness :
    runWith flow2 ⟨[1], [1], some [[0]]⟩ = .escape [[0], [1, 0], [1, 1]] := by
  have h := (c3_fork_pushes_extensions_then_unwinds flow2 [1] [0, 1]
    (fun y => .ret (some (1, y))) (by rfl)).1 [[0]]
  simpa using h

/-- C4: during replay an unconsumed recorded value is returned by `choose`
when it is in the offered domain, and otherwise raises the
`ChooserException`; the exception propagates out of the replay and the
driver loop stops at once with no partial result list. -/
theorem c4_determinism_violation_aborts {V β : Type} [DecidableEq V] :
    (∀ (ch : List V) (c : V) (rest : List V) (st : List (List V)) (dom : List V), c ∈ dom →
        Chooser.choose ⟨ch, c :: rest, some st⟩ dom = .value c ⟨ch, rest, some st⟩)
    ∧ (∀ (ch : List V) (c : V) (rest : List V) (st : List (List V)) (dom : List V), c ∉ dom →
        Chooser.choose ⟨ch, c :: rest, some st⟩ dom = .nondet)
    ∧ (∀ (fl : Flow V β) (p dom : List V) (k : V → Flow V β) (c : V) (rest : List V)
          (st : List (List V)), descend fl p = some (.choose dom k) → c ∉ dom →
        runWith fl ⟨p ++ c :: rest, p ++ c :: rest, some st⟩ = .nondet)
    ∧ (∀ (fl : Flow V β) (stack : List (List V)) (p : List V) (results : List β) (fuel : Nat),
        runWith fl ⟨p, p, some stack⟩ = .nondet →
        applyLoopW fl (fuel + 1) (stack ++ [p]) results = some .nondetErr) := by
  refine ⟨?_, ?_, ?_, ?_⟩
  · intro ch c rest st dom hc
    simp [Chooser.choose, hc]
  · intro ch c rest st dom hc
    simp [Chooser.choose, hc]
  · intro fl p dom k c rest st h hc
    rw [runWith_descend h (p ++ c :: rest) (c :: rest) st]
    simp [runWith, Chooser.choose, hc]
  · intro fl stack p results fuel h
    simp only [applyLoopW, List.getLast?_concat, List.dropLast_concat, h]

theorem c4_witness :
    Chooser.choose ⟨[5], [5], some []⟩ [0, 1] = ChooseOut.nondet
    ∧ applyLoopW flowPair 1 [[5]] [] = some ApplyOut.nondetErr := by
  have hnd : runWith flowPair (⟨[5], [5], some []⟩ : Chooser Nat) = .nondet := by
    have h3 := (c4_determinism_violation_aborts (V := Nat) (β := Nat)).2.2.1 flowPair []
      [0, 1] (fun x => .ret (some x)) 5 [] [] (by rfl) (by decide)
    simpa using h3
  refine ⟨?_, ?_⟩
  · exact (c4_determinism_violation_aborts (V := Nat) (β := Nat)).2.1 [5] 5 [] [] [0, 1]
      (by decide)
  · have h2 := (c4_determinism_violation_aborts (V := Nat) (β := Nat)).2.2.2 flowPair []
      [5] [] 0 hnd
    simpa using h2

/-- C5: the driver appends exactly the completed-path results that are not
`None`: `None` contributes nothing, while falsy-but-not-`None` results
such as `0` or an empty collection are retained. -/
theorem c5_only_none_results_are_dropped {V β : Type} [DecidableEq V] :
    (∀ fl : Flow V β, ∃ n,
        applyLoopW fl n [[]] [] = some (.results ((tpaths fl).filterMap Prod.snd)))
    ∧ applyLoopW flowFalsy 4 [[]] [] = some (.results [[2], []])
    ∧ applyLoopW flowZero 3 [[]] [] = some (.results [0]) := by
  refine ⟨fun fl => ?_, by rfl, by rfl⟩
  obtain ⟨n, _, h2⟩ := apply_run fl
  exact ⟨n, h2⟩

/-- C6: `combine` is the cross product in A-major B-minor order, each
record a copy of `a` overwritten by every key of `b` (a key present in
both takes b's value); it is not commutative. -/
theorem c6_combine_cross_product {α : Type} [DecidableEq α] :
    (∀ A B : List (Assign α),
        Assignments.combine A B = A.flatMap (fun a => B.map (fun b => dictUpdate a b)))
    ∧ (∀ A B : List (Assign α), (Assignments.combine A B).length = A.length * B.length)
    ∧ (∀ (a b : Assign α) (kk : String), (b.map Prod.fst).Nodup →
        (∀ w, dictGet b kk = some w → dictGet (dictUpdate a b) kk = some w)
        ∧ (dictGet b kk = none → dictGet (dictUpdate a b) kk = dictGet a kk))
    ∧ Assignments.combine [[("x", 1)]] [[("x", 2)]] = ([[("x", 2)]] : List (Assign Nat))
    ∧ Assignments.combine [[("x", 2)]] [[("x", 1)]] = ([[("x", 1)]] : List (Assign Nat)) := by
  refine ⟨combine_eq_flatMap, fun A B => ?_, fun a b kk hnd => ?_, by rfl, by rfl⟩
  · rw [combine_eq_flatMap, List.length_flatMap]
    rw [show (List.length ∘ fun a => List.map (fun b => dictUpdate a b) B)
        = fun _ : Assign α => B.length from funext fun a => by simp]
    rw [List.map_const', List.sum_replicate, smul_eq_mul]
  · have h := dictGet_dictUpdate kk b a hnd
    constructor
    · intro w hw
      rw [h, hw]
    · intro hw
      rw [h, hw]

theorem c6_witness :
    dictGet (dictUpdate [("x", (1 : Nat))] [("x", 2)]) "x" = some 2
    ∧ dictGet (dictUpdate [("x", (1 : Nat)), ("y", 5)] []) "y" = some 5 := by
  constructor
  · exact ((c6_combine_cross_product.2.2.1) [("x", 1)] [("x", 2)] "x" (by decide)).1 2 (by rfl)
  · exact ((c6_combine_cross_product.2.2.1) [("x", 1), ("y", 5)] [] "y" (by decide)).2 (by rfl)

/-- C7: `fix` keeps a record iff every constraint key present in the
record carries the constrained value; records lacking a constrained key
are kept unconditionally, and the kept records keep their original
order. -/
theorem c7_fix_is_soft_filter {α : Type} [DecidableEq α] :
    ∀ (A : List (Assign α)) (C : Assign α),
      (Assignments.fix A C).Sublist A
      ∧ ∀ r, (r ∈ Assignments.fix A C
          ↔ r ∈ A ∧ ∀ kv ∈ C, ∀ w, dictGet r kv.1 = some w → w = kv.2) := by
  intro A C
  constructor
  · exact List.filter_sublist A
  · intro r
    rw [Assignments.fix, List.mem_filter, fixKeep_iff]

theorem c7_witness : [("y", (5 : Nat))] ∈ Assignments.fix [[("y", 5)]] [("x", 1)] := by
  refine ((c7_fix_is_soft_filter [[("y", 5)]] [("x", 1)]).2 [("y", 5)]).mpr ⟨by simp, ?_⟩
  intro kv hkv w hw
  have hkv2 : kv = ("x", (1 : Nat)) := by simpa using hkv
  subst hkv2
  have hnone : dictGet [("y", (5 : Nat))] ("x", (1 : Nat)).1 = none := by rfl
  rw [hnone] at hw
  cases hw

/-- C8: `filter` is `fix` followed by discarding the records missing some
constraint key; hence it is a sub-collection of `fix` and all its records
contain every constraint key. -/
theorem c8_filter_is_hard_filter {α : Type} [DecidableEq α] :
    ∀ (A : List (Assign α)) (C : Assign α),
      Assignments.filter A C
        = (Assignments.fix A C).filter (fun r => C.all (fun kv => dictHasKey r kv.1))
      ∧ (Assignments.filter A C).Sublist (Assignments.fix A C)
      ∧ ∀ r, r ∈ Assignments.filter A C →
          r ∈ Assignments.fix A C ∧ ∀ kv ∈ C, dictHasKey r kv.1 = true := by
  intro A C
  refine ⟨rfl, List.filter_sublist _, ?_⟩
  intro r hr
  rw [Assignments.filter, List.mem_filter] at hr
  exact ⟨hr.1, List.all_eq_true.mp hr.2⟩

theorem c8_witness :
    [("x", (1 : Nat)), ("y", 2)] ∈ Assignments.fix [[("x", 1), ("y", 2)], [("y", 2)]] [("x", 1)]
    ∧ ∀ kv ∈ [("x", (1 : Nat))], dictHasKey [("x", (1 : Nat)), ("y", 2)] kv.1 = true := by
  exact (c8_filter_is_hard_filter [[("x", 1), ("y", 2)], [("y", 2)]] [("x", 1)]).2.2
    [("x", 1), ("y", 2)] (by decide)

/-- C9 counterexample: a chart whose flow methods are declared `zflow`
before `aflow` is processed by `create` in `dir()` (alphabetical) order,
not declaration order, so the collected results differ from the
registration-order concatenation. -/
theorem c9_counterexample :
    chartCreate chartZA = [.pscalar 2, .pscalar 1]
    ∧ chartCreateRegOrder chartZA = [.pscalar 1, .pscalar 2]
    ∧ chartCreate chartZA ≠ chartCreateRegOrder chartZA := by
  refine ⟨rfl, rfl, ?_⟩
  intro h
  have h2 : ([PyObj.pscalar 2, PyObj.pscalar 1] : List (PyObj Nat))
      = [PyObj.pscalar 1, PyObj.pscalar 2] := by
    calc ([PyObj.pscalar 2, PyObj.pscalar 1] : List (PyObj Nat))
        = chartCreate chartZA := by rfl
      _ = chartCreateRegOrder chartZA := h
      _ = [PyObj.pscalar 1, PyObj.pscalar 2] := by rfl
  simp at h2

/-- C9 (amended): `create` runs every flow-marked entry and concatenates
their collected results in `dir()` order, i.e. sorted by entry name; this
coincides with registration (declaration) order exactly when the names
are declared in sorted order. -/
theorem c9_create_concatenates_in_name_order {V α : Type} :
    ∀ flows : List (String × Flow V (PyObj α)),
      chartCreate flows = chartCreateRegOrder (sortByName flows)
      ∧ (flows.Pairwise (fun a b => nameLt a.1 b.1 = true) →
          chartCreate flows = chartCreateRegOrder flows) := by
  intro flows
  refine ⟨rfl, fun hs => ?_⟩
  rw [show chartCreate flows = chartCreateRegOrder (sortByName flows) from rfl,
    sortByName_sorted flows hs]

theorem c9_witness :
    chartCreate [("aflow", flowScalarTwo), ("zflow", flowScalarOne)]
      = chartCreateRegOrder [("aflow", flowScalarTwo), ("zflow", flowScalarOne)] := by
  exact (c9_create_concatenates_in_name_order _).2 (by decide)

/-- C10: a chooser built with `stack = None` (the default constructor) is
in single-choice mode: `choose` returns the first candidate and leaves the
chooser state untouched, the replay never consumes a recorded value, never
escapes and never raises the determinism violation, and (for non-empty
domains) the single run follows the first-candidate path — the very last
path the exhaustive driver visits — producing that path's result. -/
theorem c10_default_chooser_single_choice {V β : Type} [DecidableEq V] :
    (∀ (ch it : List V) (v : V) (dom : List V),
        Chooser.choose ⟨ch, it, none⟩ (v :: dom) = .value v ⟨ch, it, none⟩)
    ∧ (∀ (fl : Flow V β) (ch it : List V),
        runWith fl ⟨ch, it, none⟩ = runWith fl ⟨[], [], none⟩
        ∧ (∀ ps, runWith fl ⟨ch, it, none⟩ ≠ .escape ps)
        ∧ runWith fl ⟨ch, it, none⟩ ≠ .nondet)
    ∧ (∀ fl : Flow V β, NeDoms fl →
        ∃ b, runWith fl ⟨[], [], none⟩ = .ok b
          ∧ (tpaths fl).getLast? = some (firstPath fl, b)) := by
  exact ⟨fun ch it v dom => rfl, fun fl ch it => runWith_single fl ch it,
    fun fl h => single_run_is_last_path fl h⟩

theorem c10_witness :
    ∃ b, runWith flow2 ⟨[], [], none⟩ = .ok b
      ∧ (tpaths flow2).getLast? = some (firstPath flow2, b) := by
  exact (c10_default_chooser_single_choice (V := Nat) (β := Nat × Nat)).2.2 flow2
    (by simp [NeDoms, flow2])

end Exhaustive
